import Mathlib

/-!
# Verification of the ERC20 transfer policy codec

Shallow embedding of `src/typescript/examples/lit-protocol/litTools/agentWalletTransfer/policy.ts`:
the zod `policySchema` (validate), `encodePolicy` (ethers v6 AbiCoder encode of the tuple
`(uint8 erc20Decimals, uint256 maxAmount, address[] allowedTokens, address[] allowedRecipients)`
after scaling `maxAmount` by `parseUnits`) and `decodePolicy` (ABI decode plus re-validation).

Strings are Lean `String`s, byte sequences are `List Nat` with every entry `< 256`,
machine integers are `Nat`/`Int` with explicit range checks where the library checks them.
-/

/-! ## Character classes and JS-style numeric string primitives -/

/-- ASCII whitespace recognised by JS `parseInt` / `BigInt` trimming
(the common ASCII subset; the policy module never feeds whitespace-bearing strings). -/
def isWsChar (c : Char) : Bool :=
  c = ' ' || c = '\t' || c = '\n' || c = '\r' || c = '\x0b' || c = '\x0c'

def isDigitChar (c : Char) : Bool := '0' ≤ c && c ≤ '9'

def digVal (c : Char) : Nat := c.toNat - 48

/-- The 22 hexadecimal digit characters. -/
def hexDigitChars : List Char :=
  ['0', '1', '2', '3'] ++ ['4', '5', '6', '7'] ++ ['8', '9', 'a', 'b'] ++
    ['c', 'd', 'e', 'f'] ++ ['A', 'B', 'C', 'D'] ++ ['E', 'F']

def isHexDigitChar (c : Char) : Bool := hexDigitChars.contains c

/-- Numeric value of a hex digit character (0 on anything else). -/
def hexDigVal (c : Char) : Nat :=
  match c with
  | '0' => 0 | '1' => 1 | '2' => 2 | '3' => 3 | '4' => 4
  | '5' => 5 | '6' => 6 | '7' => 7 | '8' => 8 | '9' => 9
  | 'a' => 10 | 'b' => 11 | 'c' => 12 | 'd' => 13 | 'e' => 14 | 'f' => 15
  | 'A' => 10 | 'B' => 11 | 'C' => 12 | 'D' => 13 | 'E' => 14 | 'F' => 15
  | _ => 0

/-- Longest prefix of decimal digits. -/
def takeDigits : List Char → List Char
  | [] => []
  | c :: cs => if isDigitChar c then c :: takeDigits cs else []

/-- Longest prefix of hexadecimal digits. -/
def takeHexDigits : List Char → List Char
  | [] => []
  | c :: cs => if isHexDigitChar c then c :: takeHexDigits cs else []

/-- Positional (most-significant-first) value of a decimal digit sequence. -/
def digitsVal : List Char → Nat
  | [] => 0
  | c :: cs => digVal c * 10 ^ cs.length + digitsVal cs

/-- Positional (most-significant-first) value of a hexadecimal digit sequence. -/
def hexDigitsVal : List Char → Nat
  | [] => 0
  | c :: cs => hexDigVal c * 16 ^ cs.length + hexDigitsVal cs

/-- Strip an optional leading `-`/`+` sign, returning the sign and the remainder. -/
def splitSign (cs : List Char) : Int × List Char :=
  match cs with
  | [] => (1, [])
  | c :: rest => if c = '-' then (-1, rest) else if c = '+' then (1, rest) else (1, c :: rest)

/-- Does `cs` start with `0` followed by one of the two radix letters? -/
def hasRadixPrefix (cs : List Char) (lo hi : Char) : Bool :=
  match cs with
  | c0 :: c1 :: _ => c0 = '0' && (c1 = lo || c1 = hi)
  | _ => false

/-- JS `parseInt(s, 10)`: skip leading whitespace, optional sign, then the longest
prefix of decimal digits; `none` models `NaN` (no digits). Trailing garbage is ignored.
The float value of a digit prefix compares to the schema's bounds (0, 255) exactly as
its integer value does, so `Int` is an exact model for the schema's predicates;
JS `-0` compares `>= 0`, as does `Int`'s `-0 = 0`. -/
def parseIntJS (s : String) : Option Int :=
  let sb := splitSign (s.data.dropWhile isWsChar)
  let ds := takeDigits sb.2
  if ds.isEmpty then none else some (sb.1 * (digitsVal ds : Int))

/-- JS `parseInt(s)` with no radix argument: like `parseIntJS`, but a `0x`/`0X`
prefix (after the sign) switches to hexadecimal. Used by `encodePolicy`'s
`parseInt(policy.erc20Decimals)` call. -/
def parseIntAuto (s : String) : Option Int :=
  let sb := splitSign (s.data.dropWhile isWsChar)
  if hasRadixPrefix sb.2 'x' 'X' then
    let ds := takeHexDigits (sb.2.drop 2)
    if ds.isEmpty then none else some (sb.1 * (hexDigitsVal ds : Int))
  else
    let ds := takeDigits sb.2
    if ds.isEmpty then none else some (sb.1 * (digitsVal ds : Int))

/-- JS `BigInt(string)` (`StringToBigInt`): trim whitespace on both ends, empty means `0`,
a `0x`/`0o`/`0b` prefix selects the radix (no sign allowed), otherwise an optional sign
followed by decimal digits; the whole remaining string must be consumed, else it throws
(`none`). This is what ethers' `getBigInt` does to the `erc20Decimals` string. -/
def jsBigIntOfString (s : String) : Option Int :=
  let cs := ((s.data.dropWhile isWsChar).reverse.dropWhile isWsChar).reverse
  if cs.isEmpty then some 0
  else if hasRadixPrefix cs 'x' 'X' then
    let rest := cs.drop 2
    if rest.isEmpty || !rest.all isHexDigitChar then none else some (hexDigitsVal rest : Int)
  else if hasRadixPrefix cs 'b' 'B' then
    let rest := cs.drop 2
    if rest.isEmpty || !rest.all (fun c => c = '0' || c = '1') then none
    else some ((rest.foldl (fun a c => 2 * a + digVal c) 0 : Nat) : Int)
  else if hasRadixPrefix cs 'o' 'O' then
    let rest := cs.drop 2
    if rest.isEmpty || !rest.all (fun c => '0' ≤ c && c ≤ '7') then none
    else some ((rest.foldl (fun a c => 8 * a + digVal c) 0 : Nat) : Int)
  else
    let sb := splitSign cs
    if sb.2.isEmpty || !sb.2.all isDigitChar then none
    else some (sb.1 * (digitsVal sb.2 : Int))

/-! ## Decimal rendering of non-negative integers (`BigInt.prototype.toString`) -/

def digitChar (d : Nat) : Char :=
  match d with
  | 0 => '0' | 1 => '1' | 2 => '2' | 3 => '3' | 4 => '4'
  | 5 => '5' | 6 => '6' | 7 => '7' | 8 => '8' | _ => '9'

/-- Base-10 digits of `n`, least significant first; fuel-structural so the kernel
can evaluate it (fuel `≥ n` suffices). -/
def natDigitsRevAux : Nat → Nat → List Nat
  | 0, _ => []
  | fuel + 1, n => if n = 0 then [] else n % 10 :: natDigitsRevAux fuel (n / 10)

def natDigitsRev (n : Nat) : List Nat := natDigitsRevAux n n

/-- Decimal rendering of a natural number, as `toString` of a JS BigInt/Number produces it. -/
def natToString (n : Nat) : String :=
  if n = 0 then "0" else ⟨(natDigitsRev n).reverse.map digitChar⟩

/-! ## The policy record and the zod schema -/

/-- The `ERC20TransferPolicyType` record (field names follow the source). -/
structure Policy where
  type : String
  version : String
  erc20Decimals : String
  maxAmount : String
  allowedTokens : List String
  allowedRecipients : List String
deriving DecidableEq, Repr

/-- Error kinds of the codec: zod schema violations (carrying the offending field's
name, as the first issue of the thrown `ZodError` does), encoding failures
(ethers value/format assertions) and decoding failures (ethers buffer/format errors). -/
inductive PolicyError where
  | schemaViolation (field : String)
  | encodingError
  | decodingError
deriving DecidableEq, Repr

instance {ε α : Type} [DecidableEq ε] [DecidableEq α] : DecidableEq (Except ε α) := fun a b =>
  match a, b with
  | .error e, .error f =>
      if h : e = f then .isTrue (h ▸ rfl) else .isFalse (fun hh => h (by cases hh; rfl))
  | .ok x, .ok y =>
      if h : x = y then .isTrue (h ▸ rfl) else .isFalse (fun hh => h (by cases hh; rfl))
  | .error _, .ok _ => .isFalse (fun hh => Except.noConfusion hh)
  | .ok _, .error _ => .isFalse (fun hh => Except.noConfusion hh)

/-- Modelled from the spec: `BaseEthereumAddressSchema` (imported from the external
`@lit-protocol/aw-tool` package, not part of this repository) accepts a
syntactically well-formed account address: `0x` followed by exactly 40 hex digits;
wrong length or a missing prefix is rejected. -/
def isEthAddress (s : String) : Bool :=
  match s.data with
  | c0 :: c1 :: rest => c0 = '0' && c1 = 'x' && rest.length = 40 && rest.all isHexDigitChar
  | _ => false

/-- The `erc20Decimals` refinement: `parseInt(val, 10)` is not `NaN`, `>= 0` and `<= 255`. -/
def decimalsRefine (s : String) : Bool :=
  match parseIntJS s with
  | some n => 0 ≤ n && n ≤ 255
  | none => false

/-- The `maxAmount` refinement: `parseInt(val, 10)` is not `NaN` and `>= 0`. -/
def maxAmountRefine (s : String) : Bool :=
  match parseIntJS s with
  | some n => 0 ≤ n
  | none => false

/-- `policySchema.parse`: checks the fields in shape order
(`type`, `version`, `erc20Decimals`, `maxAmount`, `allowedTokens`, `allowedRecipients`);
`version` is an unrestricted `z.string()`. On failure the first zod issue names the
first offending field; on success the record is returned unchanged. -/
def validatePolicy (p : Policy) : Except PolicyError Policy :=
  if p.type ≠ "ERC20Transfer" then .error (.schemaViolation "type")
  else if !decimalsRefine p.erc20Decimals then .error (.schemaViolation "erc20Decimals")
  else if !maxAmountRefine p.maxAmount then .error (.schemaViolation "maxAmount")
  else if !p.allowedTokens.all isEthAddress then .error (.schemaViolation "allowedTokens")
  else if !p.allowedRecipients.all isEthAddress then .error (.schemaViolation "allowedRecipients")
  else .ok p

/-! ## Inversion lemmas for the schema -/

theorem decimalsRefine_iff (s : String) :
    decimalsRefine s = true ↔ ∃ n : Int, parseIntJS s = some n ∧ 0 ≤ n ∧ n ≤ 255 := by
  unfold decimalsRefine
  cases h : parseIntJS s <;> simp [h]

theorem maxAmountRefine_iff (s : String) :
    maxAmountRefine s = true ↔ ∃ n : Int, parseIntJS s = some n ∧ 0 ≤ n := by
  unfold maxAmountRefine
  cases h : parseIntJS s <;> simp [h]

theorem validatePolicy_ok_iff (p r : Policy) :
    validatePolicy p = .ok r ↔
      r = p ∧ p.type = "ERC20Transfer" ∧ decimalsRefine p.erc20Decimals = true ∧
      maxAmountRefine p.maxAmount = true ∧ p.allowedTokens.all isEthAddress = true ∧
      p.allowedRecipients.all isEthAddress = true := by
  constructor
  · intro h
    unfold validatePolicy at h
    split_ifs at h with h1 h2 h3 h4 h5
    all_goals first
      | exact Except.noConfusion h
      | (injection h with h
         subst h
         refine ⟨rfl, ?_, ?_, ?_, ?_, ?_⟩ <;> simp_all)
  · rintro ⟨rfl, ht, hd, hm, hta, hra⟩
    unfold validatePolicy
    split_ifs with h1 h2 h3 h4 h5 <;> simp_all
    · obtain ⟨x, hx, hfx⟩ := h4
      exact absurd (hta x hx) (by simp [hfx])
    · obtain ⟨x, hx, hfx⟩ := h5
      exact absurd (hra x hx) (by simp [hfx])

/-! ## Concrete records used by the validation claims -/

def pGood : Policy := ⟨"ERC20Transfer", "1.0.0", "18", "1", [], []⟩
def pDec256 : Policy := ⟨"ERC20Transfer", "1.0.0", "256", "0", [], []⟩
def pDecNeg1 : Policy := ⟨"ERC20Transfer", "1.0.0", "-1", "0", [], []⟩
def pNegFrac : Policy := ⟨"ERC20Transfer", "1.0.0", "18", "-0.5", [], []⟩
def pNegSeven : Policy := ⟨"ERC20Transfer", "1.0.0", "18", "-7", [], []⟩
def pBadToken : Policy := ⟨"ERC20Transfer", "1.0.0", "18", "100", ["0x1234"], []⟩
def pNonNumeral : Policy :=
  ⟨"ERC20Transfer", "1.0.0", "12abc", "1.5", ["0xAAAAAAAAAAAAAAAAAAAAAAAAAAAAAAAAAAAAAAAA"], []⟩

/-- **C7**: `validate` accepts a record only if its `erc20Decimals` string parses
(via `parseInt(·, 10)`) to an integer in `[0, 255]`; in particular an otherwise
valid record with `erc20Decimals = "256"` or `"-1"` is rejected, with the error
naming the `erc20Decimals` field. -/
theorem claimC7_decimals_range :
    (∀ p r : Policy, validatePolicy p = .ok r →
      ∃ n : Int, parseIntJS p.erc20Decimals = some n ∧ 0 ≤ n ∧ n ≤ 255) ∧
    validatePolicy pDec256 = .error (.schemaViolation "erc20Decimals") ∧
    validatePolicy pDecNeg1 = .error (.schemaViolation "erc20Decimals") := by
  refine ⟨?_, by decide, by decide⟩
  intro p r h
  exact (decimalsRefine_iff _).mp ((validatePolicy_ok_iff p r).mp h).2.2.1

/-- Witness for C7, instantiated at a concrete accepted record. -/
theorem claimC7_witness :
    ∃ n : Int, parseIntJS pGood.erc20Decimals = some n ∧ 0 ≤ n ∧ n ≤ 255 :=
  claimC7_decimals_range.1 pGood pGood (by decide)

/-- **C8 counterexample**: the string `"-0.5"` denotes the negative number −1/2,
yet `validate` accepts a record carrying it as `maxAmount`: `parseInt("-0.5", 10)`
truncates at the decimal point to `-0`, and `-0 >= 0` holds in JS. -/
theorem claimC8_counterexample :
    pNegFrac.maxAmount = "-0.5" ∧ validatePolicy pNegFrac = .ok pNegFrac ∧
    parseIntJS "-0.5" = some 0 := by decide

/-- **C8 (amended)**: `validate` rejects every record whose `maxAmount` string
parses via `parseInt` to a negative value — in particular every negative integer
numeral — and every record whose `maxAmount` does not parse to a number at all;
strings denoting fractions strictly between −1 and 0 truncate to `-0` and slip
through. -/
theorem claimC8_amended (p : Policy)
    (h : parseIntJS p.maxAmount = none ∨ ∃ v : Int, parseIntJS p.maxAmount = some v ∧ v < 0) :
    ∃ e, validatePolicy p = .error e := by
  have href : maxAmountRefine p.maxAmount = false := by
    unfold maxAmountRefine
    rcases h with h | ⟨v, hv, hneg⟩
    · simp [h]
    · simp only [hv]
      simpa using hneg
  unfold validatePolicy
  split_ifs <;> simp_all

/-- Witness for C8 (amended) at `maxAmount = "-7"`. -/
theorem claimC8_witness : ∃ e, validatePolicy pNegSeven = .error e :=
  claimC8_amended pNegSeven (Or.inr ⟨-7, by decide, by decide⟩)

/-- **C9**: when validation fails — in particular when an `allowedTokens` entry is
not a well-formed address while the earlier fields are fine — the result is a
`SchemaViolation` naming the first offending field, and no (partial) record is
returned: `validate` is total, returning either the record unchanged or a
`SchemaViolation`. -/
theorem claimC9_schema_violation :
    (∀ p : Policy, ∀ a : String, a ∈ p.allowedTokens → isEthAddress a = false →
      p.type = "ERC20Transfer" → decimalsRefine p.erc20Decimals = true →
      maxAmountRefine p.maxAmount = true →
      validatePolicy p = .error (.schemaViolation "allowedTokens")) ∧
    (∀ p : Policy, p.type ≠ "ERC20Transfer" →
      validatePolicy p = .error (.schemaViolation "type")) ∧
    (∀ p : Policy, validatePolicy p = .ok p ∨ ∃ f, validatePolicy p = .error (.schemaViolation f)) := by
  refine ⟨?_, ?_, ?_⟩
  · intro p a ha hfa ht hd hm
    have hall : p.allowedTokens.all isEthAddress = false := by
      cases hcase : p.allowedTokens.all isEthAddress
      · rfl
      · exact absurd (List.all_eq_true.mp hcase a ha) (by simp [hfa])
    unfold validatePolicy
    split_ifs <;> simp_all
  · intro p ht
    unfold validatePolicy
    split_ifs
    simp_all
  · intro p
    unfold validatePolicy
    split_ifs <;> simp

/-- Witness for C9 at a record whose only flaw is a malformed token address. -/
theorem claimC9_witness :
    validatePolicy pBadToken = .error (.schemaViolation "allowedTokens") :=
  claimC9_schema_violation.1 pBadToken "0x1234" (by decide) (by decide) (by decide)
    (by decide) (by decide)

/-- **C10**: records whose `erc20Decimals` or `maxAmount` are not decimal integer
numerals can still pass `validate`, because both range checks run on
`parseInt`'s truncated value: a record with `erc20Decimals = "12abc"` and
`maxAmount = "1.5"` is accepted (`parseInt` yields 12 and 1). -/
theorem claimC10_parseInt_truncation :
    validatePolicy pNonNumeral = .ok pNonNumeral ∧
    pNonNumeral.erc20Decimals = "12abc" ∧ pNonNumeral.maxAmount = "1.5" ∧
    parseIntJS "12abc" = some 12 ∧ parseIntJS "1.5" = some 1 := by decide

/-! ## Keccak-256 (used by ethers' `getAddress` for EIP-55 checksumming)

State: 25 lanes of 64 bits, lane `(x, y)` at index `x + 5 * y`; all lane values
are `Nat`s kept below `2 ^ 64` by masking. -/

def rotl64 (x n : Nat) : Nat := ((x <<< n) ||| (x >>> (64 - n))) % 2 ^ 64

def not64 (x : Nat) : Nat := x ^^^ (2 ^ 64 - 1)

def lane (s : List Nat) (x y : Nat) : Nat := s.getD (x % 5 + 5 * (y % 5)) 0

def keccakTheta (s : List Nat) : List Nat :=
  let c := (List.range 5).map (fun x =>
    (lane s x 0) ^^^ (lane s x 1) ^^^ (lane s x 2) ^^^ (lane s x 3) ^^^ (lane s x 4))
  let d := (List.range 5).map (fun x =>
    (c.getD ((x + 4) % 5) 0) ^^^ rotl64 (c.getD ((x + 1) % 5) 0) 1)
  (List.range 25).map (fun i => (s.getD i 0) ^^^ (d.getD (i % 5) 0))

/-- Rotation offsets, indexed by `x + 5 * y`. -/
def rhoOffsets : List Nat :=
  [0, 1, 62, 28, 27] ++ [36, 44, 6, 55, 20] ++ [3, 10, 43, 25, 39] ++
    [41, 45, 15, 21, 8] ++ [18, 2, 61, 56, 14]

def keccakRhoPi (s : List Nat) : List Nat :=
  (List.range 25).map (fun i =>
    let xt := i % 5
    let yt := i / 5
    let xs := (xt + 3 * yt) % 5
    let ys := xt
    rotl64 (lane s xs ys) (rhoOffsets.getD (xs + 5 * ys) 0))

def keccakChi (s : List Nat) : List Nat :=
  (List.range 25).map (fun i =>
    let x := i % 5
    let y := i / 5
    (lane s x y) ^^^ ((not64 (lane s (x + 1) y)) &&& (lane s (x + 2) y)))

def keccakRC : List Nat :=
  [0x1, 0x8082, 0x800000000000808A, 0x8000000080008000] ++
    [0x808B, 0x80000001, 0x8000000080008081, 0x8000000000008009] ++
    [0x8A, 0x88, 0x80008009, 0x8000000A] ++
    [0x8000808B, 0x800000000000008B, 0x8000000000008089, 0x8000000000008003] ++
    [0x8000000000008002, 0x8000000000000080, 0x800A, 0x800000008000000A] ++
    [0x8000000080008081, 0x8000000000008080, 0x80000001, 0x8000000080008008]

def keccakRound (s : List Nat) (rc : Nat) : List Nat :=
  match keccakChi (keccakRhoPi (keccakTheta s)) with
  | a :: rest => (a ^^^ rc) :: rest
  | [] => []

def keccakF (s : List Nat) : List Nat := keccakRC.foldl keccakRound s

/-- Keccak (non-SHA3) padding of a message shorter than the 136-byte rate to one block. -/
def keccakPadBlock (msg : List Nat) : List Nat :=
  if msg.length + 1 = 136 then msg ++ [0x81]
  else msg ++ [0x01] ++ List.replicate (136 - msg.length - 2) 0 ++ [0x80]

/-- Little-endian 8-byte groups to 64-bit lanes. -/
def toLanes : List Nat → List Nat
  | b0 :: b1 :: b2 :: b3 :: b4 :: b5 :: b6 :: b7 :: rest =>
      (b0 + 256 * (b1 + 256 * (b2 + 256 * (b3 + 256 * (b4 + 256 * (b5 + 256 * (b6 + 256 * b7)))))))
        :: toLanes rest
  | _ => []

def laneBytesLE (v : Nat) : List Nat := (List.range 8).map (fun k => (v >>> (8 * k)) % 256)

/-- Keccak-256 of a message of fewer than 136 bytes (a single rate block — the
checksum path only ever hashes 40-byte inputs). -/
def keccak256 (msg : List Nat) : List Nat :=
  let st := toLanes (keccakPadBlock msg) ++ List.replicate 8 0
  ((keccakF st).take 4).map laneBytesLE |>.flatten

/-! ## EIP-55 checksummed addresses (`ethers.getAddress`) -/

/-- Lowercasing as applied to the hex part of an address. -/
def lowerHexChar (c : Char) : Char :=
  match c with
  | 'A' => 'a' | 'B' => 'b' | 'C' => 'c' | 'D' => 'd' | 'E' => 'e' | 'F' => 'f' | _ => c

def upperHexChar (c : Char) : Char :=
  match c with
  | 'a' => 'A' | 'b' => 'B' | 'c' => 'C' | 'd' => 'D' | 'e' => 'E' | 'f' => 'F' | _ => c

/-- The checksummed digit sequence: keccak-hash the (already lowercased) digits'
ASCII bytes and uppercase precisely the digits whose hash nibble is `>= 8`. -/
def checksumBody (hexChars : List Char) : List Char :=
  let hashed := keccak256 (hexChars.map Char.toNat)
  (List.range hexChars.length).map (fun i =>
    let c := hexChars.getD i ' '
    let nib := if i % 2 = 0 then (hashed.getD (i / 2) 0) >>> 4 else (hashed.getD (i / 2) 0) % 16
    if 8 ≤ nib then upperHexChar c else c)

/-- `getChecksumAddress`: lowercase the 40 hex digits, keccak-hash their ASCII bytes,
and uppercase precisely the digits whose corresponding hash nibble is `>= 8`. -/
def getChecksumAddress (s : String) : String :=
  ⟨'0' :: 'x' :: checksumBody ((s.data.drop 2).map lowerHexChar)⟩

def isUpperHexLetter (c : Char) : Bool := 'A' ≤ c && c ≤ 'F'
def isLowerHexLetter (c : Char) : Bool := 'a' ≤ c && c ≤ 'f'

/-- `ethers.getAddress`: accept `(0x)?` plus 40 hex digits, and if the digits mix
upper and lower case, require the EIP-55 checksum to match; returns the
checksummed form. (The ICAP branch is unreachable from this module and throws.) -/
def getAddress (s : String) : Except PolicyError String :=
  match (if hasRadixPrefix s.data 'x' 'x' then
           (if (s.data.drop 2).length = 40 && (s.data.drop 2).all isHexDigitChar
            then some (s.data.drop 2) else none)
         else if s.data.length = 40 && s.data.all isHexDigitChar then some s.data
         else none : Option (List Char)) with
  | none => .error .encodingError
  | some body =>
      if (⟨'0' :: 'x' :: body⟩ : String).data.any isUpperHexLetter &&
          (⟨'0' :: 'x' :: body⟩ : String).data.any isLowerHexLetter &&
          getChecksumAddress ⟨'0' :: 'x' :: body⟩ ≠ (⟨'0' :: 'x' :: body⟩ : String)
      then .error .encodingError
      else .ok (getChecksumAddress ⟨'0' :: 'x' :: body⟩)

/-! ## `ethers.parseUnits` (`FixedNumber.fromString` with width 512) -/

/-- Split a digit string with at most one decimal point into whole and fractional
digit parts, mirroring the regex `^(-?)([0-9]*)\.?([0-9]*)$` (sign handled by the
caller). -/
def splitFrac (cs : List Char) : Option (List Char × List Char) :=
  let whole := takeDigits cs
  match cs.drop whole.length with
  | [] => some (whole, [])
  | '.' :: rest => if rest.all isDigitChar then some (whole, rest) else none
  | _ => none

/-- `FixedNumber.fromString(value, { decimals, width: 512 }).value`, i.e. the scaled
integer `parseUnits` produces: the string must match the regex above with at least
one digit, carry at most `decimals` fractional digits, and the scaled value must fit
a signed 512-bit integer. -/
def fixedFromString (s : String) (decimals : Nat) : Option Int :=
  let (neg, cs) : Bool × List Char :=
    match s.data with
    | [] => (false, [])
    | c :: rest => if c = '-' then (true, rest) else (false, c :: rest)
  match splitFrac cs with
  | none => none
  | some (whole, frac) =>
      if whole.length + frac.length = 0 then none
      else if decimals < frac.length then none
      else
        let v : Nat := digitsVal whole * 10 ^ decimals + digitsVal frac * 10 ^ (decimals - frac.length)
        if 2 ^ 511 ≤ v then none
        else some (if neg then -(v : Int) else (v : Int))

/-! ## ABI words and bytes -/

/-- Big-endian bytes of `v` in a fixed width `w` (most significant first). -/
def bytesBE : Nat → Nat → List Nat
  | 0, _ => []
  | w + 1, v => v / 256 ^ w :: bytesBE w (v % 256 ^ w)

/-- One 32-byte ABI word. -/
def wordBE (v : Nat) : List Nat := bytesBE 32 v

/-- Big-endian value of a byte sequence. -/
def beVal : List Nat → Nat
  | [] => 0
  | b :: bs => b * 256 ^ bs.length + beVal bs

/-- Bounds-checked 32-byte read at `off` (ethers `Reader.readValue` with
`allowLoose = false` refuses any read past the end of the data). -/
def readWord (bs : List Nat) (off : Nat) : Option Nat :=
  if off + 32 ≤ bs.length then some (beVal ((bs.drop off).take 32)) else none

/-- `n` consecutive word reads starting at `off`. -/
def readWords (bs : List Nat) (off : Nat) : Nat → Option (List Nat)
  | 0 => some []
  | n + 1 =>
      match readWord bs off, readWords bs (off + 32) n with
      | some v, some vs => some (v :: vs)
      | _, _ => none

/-! ## The ABI tuple packer (ethers `pack`: static head words inline, dynamic
fields as offset words pointing past the head into the tail) -/

inductive AbiField where
  | static (v : Nat)
  | dynamic (ws : List Nat)

/-- Head (with dynamic offsets still relative to the tail start) and tail of a
field sequence; `dpos` is the running length in bytes of the tail already emitted. -/
def packGo : List AbiField → Nat → List (Bool × Nat) × List Nat
  | [], _ => ([], [])
  | .static v :: fs, dpos =>
      let (h, t) := packGo fs dpos
      ((false, v) :: h, t)
  | .dynamic ws :: fs, dpos =>
      let (h, t) := packGo fs (dpos + 32 * ws.length)
      ((true, dpos) :: h, ws ++ t)

/-- The word sequence of a packed tuple: offsets are tail positions plus the head
length (ethers fixes the placeholders up with `baseOffset = staticWriter.length`). -/
def packWords (fs : List AbiField) : List Nat :=
  let (h, t) := packGo fs 0
  h.map (fun bv => if bv.1 then 32 * fs.length + bv.2 else bv.2) ++ t

/-- A dynamic array's encoding: length prefix, then the element words. -/
def arrayWords (vals : List Nat) : List Nat := vals.length :: vals

/-- Numeric value of a `0x`-prefixed address string (what `getBigInt` yields on it,
and hence the 20-byte value the address coder writes). -/
def hexValStr (s : String) : Nat := hexDigitsVal (s.data.drop 2)

/-- Address list encoding: each entry goes through `getAddress` (checksum gate) and
is written as its 160-bit numeric value. -/
def encodeAddrList : List String → Except PolicyError (List Nat)
  | [] => .ok []
  | a :: as =>
      match getAddress a, encodeAddrList as with
      | .ok r, .ok vs => .ok (hexValStr r :: vs)
      | .error e, _ => .error e
      | _, .error e => .error e

/-- `encodePolicy`: validate, scale `maxAmount` by `parseUnits(maxAmount,
parseInt(erc20Decimals))`, then ABI-encode the tuple
`(uint8, uint256, address[], address[])`.
Checks modelled from ethers v6 in source order: zod parse; `getNumber`/
`FixedFormat` on the decimals argument (integer, `0 ≤ d ≤ 80`);
`FixedNumber.fromString` on the amount; `getBigInt` plus the uint8 range check on
`erc20Decimals`; the uint256 range check on the scaled amount; `getAddress` on
every address; and the writer's 32-byte bound on every emitted word. -/
def encodePolicy (p : Policy) : Except PolicyError (List Nat) :=
  match validatePolicy p with
  | .error e => .error e
  | .ok _ =>
    match parseIntAuto p.erc20Decimals with
    | none => .error .encodingError
    | some du =>
      if 0 ≤ du ∧ du ≤ 80 then
        match fixedFromString p.maxAmount du.toNat with
        | none => .error .encodingError
        | some scaled =>
          match jsBigIntOfString p.erc20Decimals with
          | none => .error .encodingError
          | some d8 =>
            if 0 ≤ d8 ∧ d8 < 256 then
              if 0 ≤ scaled ∧ scaled < 2 ^ 256 then
                match encodeAddrList p.allowedTokens, encodeAddrList p.allowedRecipients with
                | .ok tvals, .ok rvals =>
                    let tuple := packWords [.static d8.toNat, .static scaled.toNat,
                                            .dynamic (arrayWords tvals), .dynamic (arrayWords rvals)]
                    let top := packWords [.dynamic tuple]
                    if top.all (fun w => decide (w < 2 ^ 256)) then
                      .ok ((top.map wordBE).flatten)
                    else .error .encodingError
                | .error e, _ => .error e
                | _, .error e => .error e
              else .error .encodingError
            else .error .encodingError
      else .error .encodingError

/-! ## Decoding -/

/-- Fixed-width lowercase hex rendering (ethers `toBeHex(v, 20)` without the `0x`). -/
def renderHex : Nat → Nat → List Char
  | 0, _ => []
  | w + 1, v => hexDigitChars.getD (v / 16 ^ w) ' ' :: renderHex w (v % 16 ^ w)

/-- The address coder's decode: `getAddress(toBeHex(value, 20))`; `toBeHex` refuses
values wider than 20 bytes, and `getAddress` on a fresh lowercase rendering always
succeeds, returning the checksummed form. -/
def decodeAddr (v : Nat) : Except PolicyError String :=
  if v < 16 ^ 40 then .ok (getChecksumAddress ⟨'0' :: 'x' :: renderHex 40 v⟩)
  else .error .decodingError

def decodeAddrList : List Nat → Except PolicyError (List String)
  | [] => .ok []
  | v :: vs =>
      match decodeAddr v, decodeAddrList vs with
      | .ok a, .ok as => .ok (a :: as)
      | _, _ => .error .decodingError

/-- A dynamic array decode at absolute offset `off`: read the length prefix, guard
`count * 32` against the remaining data (ethers' overrun guard; an element read past
the end fails the same way), then read the elements. -/
def readArray (bs : List Nat) (off : Nat) : Except PolicyError (List Nat) :=
  match readWord bs off with
  | none => .error .decodingError
  | some n =>
      if off + 32 + 32 * n ≤ bs.length then
        match readWords bs (off + 32) n with
        | none => .error .decodingError
        | some vs => .ok vs
      else .error .decodingError

/-- `decodePolicy`: ABI-decode
`tuple(uint8 erc20Decimals, uint256 maxAmount, address[] allowedTokens, address[] allowedRecipients)`
— the top-level word is the offset of the dynamic tuple, the tuple head is
`uint8, uint256` then two array offsets relative to the tuple start — and rebuild
the record with `type`/`version` reset to the canonical constants and the numeric
fields rendered back to decimal strings, finishing with `policySchema.parse`.
Every read is bounds-checked; any layout mismatch is a `DecodingError` and no
partial record is ever produced. -/
def decodePolicy (bs : List Nat) : Except PolicyError Policy :=
  match readWord bs 0 with
  | none => .error .decodingError
  | some w0 =>
    match readWord bs w0, readWord bs (w0 + 32), readWord bs (w0 + 64), readWord bs (w0 + 96) with
    | some d, some m, some t, some r =>
      match readArray bs (w0 + t), readArray bs (w0 + r) with
      | .ok tv, .ok rv =>
        match decodeAddrList tv, decodeAddrList rv with
        | .ok toks, .ok recips =>
            validatePolicy
              { type := "ERC20Transfer", version := "1.0.0",
                erc20Decimals := natToString d, maxAmount := natToString m,
                allowedTokens := toks, allowedRecipients := recips }
        | _, _ => .error .decodingError
      | _, _ => .error .decodingError
    | _, _, _, _ => .error .decodingError

/-- Decode of a freshly encoded policy (the round-trip the spec discusses). -/
def roundTrip (p : Policy) : Except PolicyError Policy :=
  match encodePolicy p with
  | .ok bs => decodePolicy bs
  | .error e => .error e

/-! ## Digit strings: rendering/parsing round trips -/

/-- Least-significant-first positional value, the natural induction partner of
`natDigitsRevAux`. -/
def valLSB : List Nat → Nat
  | [] => 0
  | d :: ds => d + 10 * valLSB ds

theorem digVal_digitChar {d : Nat} (h : d < 10) : digVal (digitChar d) = d := by
  interval_cases d <;> rfl

theorem isDigitChar_digitChar {d : Nat} (h : d < 10) : isDigitChar (digitChar d) = true := by
  interval_cases d <;> rfl

theorem natDigitsRevAux_val {fuel n : Nat} (h : n ≤ fuel) :
    valLSB (natDigitsRevAux fuel n) = n := by
  induction fuel generalizing n with
  | zero =>
    interval_cases n
    rfl
  | succ f ih =>
    unfold natDigitsRevAux
    by_cases hn : n = 0
    · simp [hn, valLSB]
    · rw [if_neg hn]
      have hdiv : n / 10 ≤ f := by omega
      simp only [valLSB, ih hdiv]
      omega

theorem natDigitsRevAux_lt {fuel n : Nat} : ∀ d ∈ natDigitsRevAux fuel n, d < 10 := by
  induction fuel generalizing n with
  | zero => intro d hd; simp [natDigitsRevAux] at hd
  | succ f ih =>
    intro d hd
    unfold natDigitsRevAux at hd
    by_cases hn : n = 0
    · simp [hn] at hd
    · rw [if_neg hn] at hd
      rcases List.mem_cons.mp hd with h | h
      · omega
      · exact ih d h

theorem natDigitsRev_ne_nil {n : Nat} (h : n ≠ 0) : natDigitsRev n ≠ [] := by
  unfold natDigitsRev natDigitsRevAux
  cases n with
  | zero => exact absurd rfl h
  | succ k => simp

theorem digitsVal_append_singleton (xs : List Char) (c : Char) :
    digitsVal (xs ++ [c]) = 10 * digitsVal xs + digVal c := by
  induction xs with
  | nil => simp [digitsVal]
  | cons x xs ih =>
    have hlen : (xs ++ [c]).length = xs.length + 1 := by simp
    calc digitsVal (x :: (xs ++ [c]))
        = digVal x * 10 ^ (xs ++ [c]).length + digitsVal (xs ++ [c]) := rfl
      _ = digVal x * 10 ^ (xs.length + 1) + (10 * digitsVal xs + digVal c) := by rw [hlen, ih]
      _ = 10 * digitsVal (x :: xs) + digVal c := by
          simp only [digitsVal, pow_succ]
          ring

theorem digitsVal_reverse_map (l : List Nat) (h : ∀ d ∈ l, d < 10) :
    digitsVal (l.reverse.map digitChar) = valLSB l := by
  induction l with
  | nil => rfl
  | cons d ds ih =>
    simp only [List.reverse_cons, List.map_append, List.map_cons, List.map_nil]
    rw [digitsVal_append_singleton, ih (fun x hx => h x (by simp [hx])),
      digVal_digitChar (h d (by simp))]
    simp only [valLSB]
    omega

/-- The character list behind `natToString`. -/
def natDigitsChars (n : Nat) : List Char :=
  if n = 0 then ['0'] else (natDigitsRev n).reverse.map digitChar

theorem natToString_eq (n : Nat) : natToString n = ⟨natDigitsChars n⟩ := by
  unfold natToString natDigitsChars
  split <;> rfl

theorem natDigitsChars_ne_nil (n : Nat) : natDigitsChars n ≠ [] := by
  unfold natDigitsChars
  split
  · simp
  · simpa using natDigitsRev_ne_nil (by assumption)

theorem natDigitsChars_all (n : Nat) : (natDigitsChars n).all isDigitChar = true := by
  unfold natDigitsChars
  split
  · rfl
  · rw [List.all_eq_true]
    intro c hc
    rcases List.mem_map.mp (by simpa using hc) with ⟨d, hd, rfl⟩
    exact isDigitChar_digitChar (natDigitsRevAux_lt d (by simpa using hd))

theorem digitsVal_natDigitsChars (n : Nat) : digitsVal (natDigitsChars n) = n := by
  unfold natDigitsChars
  split
  · rename_i h
    subst h
    decide
  · rw [digitsVal_reverse_map (natDigitsRev n) (fun d hd => natDigitsRevAux_lt d hd)]
    exact natDigitsRevAux_val (Nat.le_refl n)

/-! ## Parsing canonical digit strings -/

theorem isWsChar_of_digit {c : Char} (h : isDigitChar c = true) : isWsChar c = false := by
  unfold isWsChar
  by_contra hc
  simp only [Bool.not_eq_false, Bool.or_eq_true, decide_eq_true_eq] at hc
  rcases hc with ((((rfl | rfl) | rfl) | rfl) | rfl) | rfl <;> exact absurd h (by decide)

theorem digit_ne_char {c c' : Char} (h : isDigitChar c = true) (h' : isDigitChar c' = false) :
    c ≠ c' := by
  intro e
  rw [e, h'] at h
  cases h

theorem dropWhile_ws_digits {ds : List Char} (hall : ds.all isDigitChar = true) :
    ds.dropWhile isWsChar = ds := by
  cases ds with
  | nil => rfl
  | cons c cs =>
    have hc : isDigitChar c = true := by
      simp only [List.all_cons, Bool.and_eq_true] at hall
      exact hall.1
    simp [List.dropWhile_cons, isWsChar_of_digit hc]

theorem takeDigits_all {ds : List Char} (hall : ds.all isDigitChar = true) :
    takeDigits ds = ds := by
  induction ds with
  | nil => rfl
  | cons c cs ih =>
    simp only [List.all_cons, Bool.and_eq_true] at hall
    unfold takeDigits
    simp [hall.1, ih hall.2]

theorem splitSign_digits {ds : List Char} (hne : ds ≠ []) (hall : ds.all isDigitChar = true) :
    splitSign ds = (1, ds) := by
  cases ds with
  | nil => exact absurd rfl hne
  | cons c cs =>
    have hc : isDigitChar c = true := by
      simp only [List.all_cons, Bool.and_eq_true] at hall
      exact hall.1
    show (if c = '-' then ((-1 : Int), cs) else if c = '+' then (1, cs) else (1, c :: cs)) =
      (1, c :: cs)
    rw [if_neg (@digit_ne_char c '-' hc (by decide)), if_neg (@digit_ne_char c '+' hc (by decide))]

theorem parseIntJS_digits {ds : List Char} (hne : ds ≠ []) (hall : ds.all isDigitChar = true) :
    parseIntJS ⟨ds⟩ = some ((digitsVal ds : Nat) : Int) := by
  unfold parseIntJS
  rw [show (String.mk ds).data = ds from rfl, dropWhile_ws_digits hall,
    splitSign_digits hne hall]
  simp [takeDigits_all hall, List.isEmpty_iff, hne]

theorem parseIntJS_natToString (n : Nat) : parseIntJS (natToString n) = some ((n : Nat) : Int) := by
  rw [natToString_eq, parseIntJS_digits (natDigitsChars_ne_nil n) (natDigitsChars_all n),
    digitsVal_natDigitsChars]

theorem hasRadixPrefix_digits (lo hi : Char) {ds : List Char} (hall : ds.all isDigitChar = true)
    (hlo : isDigitChar lo = false) (hhi : isDigitChar hi = false) :
    hasRadixPrefix ds lo hi = false := by
  cases ds with
  | nil => rfl
  | cons c0 rest =>
    cases rest with
    | nil => rfl
    | cons c1 rest2 =>
      have h1 : isDigitChar c1 = true := by
        simp only [List.all_cons, Bool.and_eq_true] at hall
        exact hall.2.1
      unfold hasRadixPrefix
      simp [digit_ne_char h1 hlo, digit_ne_char h1 hhi]

theorem parseIntAuto_digits {ds : List Char} (hne : ds ≠ []) (hall : ds.all isDigitChar = true) :
    parseIntAuto ⟨ds⟩ = some ((digitsVal ds : Nat) : Int) := by
  unfold parseIntAuto
  rw [show (String.mk ds).data = ds from rfl, dropWhile_ws_digits hall,
    splitSign_digits hne hall]
  simp only []
  rw [if_neg (by simp [hasRadixPrefix_digits 'x' 'X' hall (by decide) (by decide)])]
  simp [takeDigits_all hall, List.isEmpty_iff, hne]

theorem parseIntAuto_natToString (n : Nat) :
    parseIntAuto (natToString n) = some ((n : Nat) : Int) := by
  rw [natToString_eq, parseIntAuto_digits (natDigitsChars_ne_nil n) (natDigitsChars_all n),
    digitsVal_natDigitsChars]

theorem jsBigIntOfString_digits {ds : List Char} (hne : ds ≠ []) (hall : ds.all isDigitChar = true) :
    jsBigIntOfString ⟨ds⟩ = some ((digitsVal ds : Nat) : Int) := by
  unfold jsBigIntOfString
  rw [show (String.mk ds).data = ds from rfl, dropWhile_ws_digits hall]
  rw [dropWhile_ws_digits (by simpa using hall), List.reverse_reverse]
  rw [if_neg (by simp [List.isEmpty_iff, hne])]
  rw [if_neg (by simp [hasRadixPrefix_digits 'x' 'X' hall (by decide) (by decide)])]
  rw [if_neg (by simp [hasRadixPrefix_digits 'b' 'B' hall (by decide) (by decide)])]
  rw [if_neg (by simp [hasRadixPrefix_digits 'o' 'O' hall (by decide) (by decide)])]
  rw [splitSign_digits hne hall]
  simp [List.isEmpty_iff, hne, hall]

theorem jsBigIntOfString_natToString (n : Nat) :
    jsBigIntOfString (natToString n) = some ((n : Nat) : Int) := by
  rw [natToString_eq, jsBigIntOfString_digits (natDigitsChars_ne_nil n) (natDigitsChars_all n),
    digitsVal_natDigitsChars]

theorem splitFrac_digits {ds : List Char} (hall : ds.all isDigitChar = true) :
    splitFrac ds = some (ds, []) := by
  unfold splitFrac
  simp [takeDigits_all hall]

theorem fixedFromString_digits {ds : List Char} (hne : ds ≠ [])
    (hall : ds.all isDigitChar = true) (d : Nat) (hfit : digitsVal ds * 10 ^ d < 2 ^ 511) :
    fixedFromString ⟨ds⟩ d = some ((digitsVal ds * 10 ^ d : Nat) : Int) := by
  cases ds with
  | nil => exact absurd rfl hne
  | cons c cs =>
    have hc : isDigitChar c = true := by
      simp only [List.all_cons, Bool.and_eq_true] at hall
      exact hall.1
    have hcd : ¬(c = '-') := @digit_ne_char c '-' hc (by decide)
    unfold fixedFromString
    rw [show (String.mk (c :: cs)).data = c :: cs from rfl]
    simp only [hcd, if_false]
    rw [splitFrac_digits hall]
    simp only [List.length_cons, List.length_nil, Nat.add_zero, Nat.sub_zero, digitsVal]
    rw [if_neg (by omega), if_neg (by omega)]
    rw [if_neg (by simp only [digitsVal] at hfit; push_neg; simpa using hfit)]
    simp [digitsVal]

theorem fixedFromString_natToString (m d : Nat) (hfit : m * 10 ^ d < 2 ^ 511) :
    fixedFromString (natToString m) d = some ((m * 10 ^ d : Nat) : Int) := by
  rw [natToString_eq]
  rw [fixedFromString_digits (natDigitsChars_ne_nil m) (natDigitsChars_all m) d
    (by rw [digitsVal_natDigitsChars]; exact hfit)]
  rw [digitsVal_natDigitsChars]

/-! ## Hex digits and addresses: round trips -/

theorem mem_hexDigitChars {c : Char} (h : isHexDigitChar c = true) : c ∈ hexDigitChars := by
  simpa [isHexDigitChar] using h

/-- Any decidable fact checked on the 22 hex digit characters holds for every
character accepted by `isHexDigitChar`. -/
theorem hexFact (P : Char → Prop) [DecidablePred P]
    (hP : (hexDigitChars.all fun c => decide (P c)) = true)
    {c : Char} (h : isHexDigitChar c = true) : P c := by
  have := List.all_eq_true.mp hP c (mem_hexDigitChars h)
  simpa using this

theorem hexDigitsVal_lt {cs : List Char} (h : cs.all isHexDigitChar = true) :
    hexDigitsVal cs < 16 ^ cs.length := by
  induction cs with
  | nil => simp [hexDigitsVal]
  | cons c cs ih =>
    simp only [List.all_cons, Bool.and_eq_true] at h
    have hc : hexDigVal c < 16 := hexFact (fun c => hexDigVal c < 16) (by decide) h.1
    have hrec := ih h.2
    simp only [hexDigitsVal, List.length_cons]
    calc hexDigVal c * 16 ^ cs.length + hexDigitsVal cs
        < hexDigVal c * 16 ^ cs.length + 16 ^ cs.length := by omega
      _ = (hexDigVal c + 1) * 16 ^ cs.length := by ring
      _ ≤ 16 * 16 ^ cs.length := Nat.mul_le_mul_right _ (by omega)
      _ = 16 ^ (cs.length + 1) := by ring

theorem renderHex_hexVal {cs : List Char} (h : cs.all isHexDigitChar = true) :
    renderHex cs.length (hexDigitsVal cs) = cs.map lowerHexChar := by
  induction cs with
  | nil => rfl
  | cons c cs ih =>
    simp only [List.all_cons, Bool.and_eq_true] at h
    have hlt := hexDigitsVal_lt h.2
    have hdiv : (hexDigVal c * 16 ^ cs.length + hexDigitsVal cs) / 16 ^ cs.length = hexDigVal c := by
      rw [Nat.mul_comm, Nat.mul_add_div (Nat.pos_pow_of_pos _ (by omega)),
        Nat.div_eq_of_lt hlt, Nat.add_zero]
    have hmod : (hexDigVal c * 16 ^ cs.length + hexDigitsVal cs) % 16 ^ cs.length
        = hexDigitsVal cs := by
      rw [Nat.mul_comm, Nat.mul_add_mod, Nat.mod_eq_of_lt hlt]
    show renderHex (cs.length + 1) (hexDigitsVal (c :: cs)) = _
    unfold renderHex
    simp only [hexDigitsVal] at hdiv hmod ⊢
    rw [hdiv, hmod, ih h.2, List.map_cons]
    congr 1
    exact hexFact (fun c => hexDigitChars.getD (hexDigVal c) ' ' = lowerHexChar c) (by decide) h.1

theorem isEthAddress_inv {a : String} (h : isEthAddress a = true) :
    ∃ rest : List Char, a.data = '0' :: 'x' :: rest ∧ rest.length = 40 ∧
      rest.all isHexDigitChar = true := by
  unfold isEthAddress at h
  rcases hd : a.data with _ | ⟨c0, _ | ⟨c1, rest⟩⟩ <;> rw [hd] at h
  · exact Bool.noConfusion h
  · exact Bool.noConfusion h
  · simp only [Bool.and_eq_true, decide_eq_true_eq] at h
    obtain ⟨⟨⟨hc0, hc1⟩, hrlen⟩, hrall⟩ := h
    subst hc0
    subst hc1
    exact ⟨rest, by first | exact hd | rfl, hrlen, hrall⟩

theorem getChecksum_lower {body : List Char} (hall : body.all isHexDigitChar = true) :
    getChecksumAddress ⟨'0' :: 'x' :: body.map lowerHexChar⟩ =
      getChecksumAddress ⟨'0' :: 'x' :: body⟩ := by
  unfold getChecksumAddress
  exact congrArg (fun l : List Char => (⟨'0' :: 'x' :: checksumBody l⟩ : String)) (by
    show (body.map lowerHexChar).map lowerHexChar = body.map lowerHexChar
    rw [List.map_map]
    apply List.map_congr_left
    intro c hc
    exact hexFact (fun c => lowerHexChar (lowerHexChar c) = lowerHexChar c) (by decide)
      (List.all_eq_true.mp hall c hc))

theorem decodeAddr_ok {a : String} (ha : isEthAddress a = true)
    (hcs : getChecksumAddress a = a) : decodeAddr (hexValStr a) = .ok a := by
  obtain ⟨rest, hdata, hlen, hall⟩ := isEthAddress_inv ha
  have hv : hexValStr a = hexDigitsVal rest := by
    unfold hexValStr
    rw [hdata]
    rfl
  have hlt : hexValStr a < 16 ^ 40 := by
    rw [hv, ← hlen]
    exact hexDigitsVal_lt hall
  unfold decodeAddr
  rw [if_pos hlt, hv, show (40 : Nat) = rest.length from hlen.symm, renderHex_hexVal hall,
    getChecksum_lower hall, show (⟨'0' :: 'x' :: rest⟩ : String) = a from by rw [← hdata], hcs]

theorem decodeAddrList_ok {l : List String}
    (h : ∀ a ∈ l, isEthAddress a = true ∧ getChecksumAddress a = a) :
    decodeAddrList (l.map hexValStr) = .ok l := by
  induction l with
  | nil => rfl
  | cons a as ih =>
    have ha := h a (by simp)
    simp only [List.map_cons]
    unfold decodeAddrList
    rw [decodeAddr_ok ha.1 ha.2, ih (fun x hx => h x (by simp [hx]))]

theorem getAddress_fixedpoint {a : String} (ha : isEthAddress a = true)
    (hcs : getChecksumAddress a = a) : getAddress a = .ok a := by
  obtain ⟨rest, hdata, hlen, hall⟩ := isEthAddress_inv ha
  have hfull : (⟨'0' :: 'x' :: rest⟩ : String) = a := by rw [← hdata]
  unfold getAddress
  rw [hdata]
  rw [if_pos (show hasRadixPrefix ('0' :: 'x' :: rest) 'x' 'x' = true by simp [hasRadixPrefix])]
  rw [if_pos (show ((('0' :: 'x' :: rest).drop 2).length = 40 &&
      (('0' :: 'x' :: rest).drop 2).all isHexDigitChar) = true by simp [hlen, hall])]
  show (if (⟨'0' :: 'x' :: rest⟩ : String).data.any isUpperHexLetter &&
      (⟨'0' :: 'x' :: rest⟩ : String).data.any isLowerHexLetter &&
      getChecksumAddress ⟨'0' :: 'x' :: rest⟩ ≠ (⟨'0' :: 'x' :: rest⟩ : String)
    then (.error .encodingError : Except PolicyError String)
    else .ok (getChecksumAddress ⟨'0' :: 'x' :: rest⟩)) = .ok a
  rw [hfull, hcs]
  simp

theorem encodeAddrList_ok {l : List String}
    (h : ∀ a ∈ l, isEthAddress a = true ∧ getChecksumAddress a = a) :
    encodeAddrList l = .ok (l.map hexValStr) := by
  induction l with
  | nil => rfl
  | cons a as ih =>
    have ha := h a (by simp)
    unfold encodeAddrList
    rw [getAddress_fixedpoint ha.1 ha.2, ih (fun x hx => h x (by simp [hx]))]
    simp

/-! ## Word-level reading of concatenated ABI words -/

theorem bytesBE_length (w : Nat) : ∀ v, (bytesBE w v).length = w := by
  induction w with
  | zero => intro v; rfl
  | succ w ih => intro v; simp [bytesBE, ih]

theorem beVal_bytesBE {w v : Nat} (h : v < 256 ^ w) : beVal (bytesBE w v) = v := by
  induction w generalizing v with
  | zero =>
    simp only [bytesBE, beVal]
    simp only [pow_zero] at h
    omega
  | succ w ih =>
    have hpos : 0 < 256 ^ w := Nat.pos_pow_of_pos _ (by omega)
    simp only [bytesBE, beVal, bytesBE_length]
    rw [ih (Nat.mod_lt _ hpos), Nat.mul_comm]
    exact Nat.div_add_mod v (256 ^ w)

theorem wordBE_length (v : Nat) : (wordBE v).length = 32 := bytesBE_length 32 v

theorem beVal_wordBE {v : Nat} (h : v < 2 ^ 256) : beVal (wordBE v) = v :=
  beVal_bytesBE (by
    have : (256 : Nat) ^ 32 = 2 ^ 256 := by norm_num
    rw [this]
    exact h)

theorem flatten_words_length (ws : List Nat) :
    ((ws.map wordBE).flatten).length = 32 * ws.length := by
  induction ws with
  | nil => rfl
  | cons v ws ih =>
    simp only [List.map_cons, List.flatten_cons, List.length_append, wordBE_length, ih,
      List.length_cons]
    ring

theorem readWord_append (l1 l2 : List Nat) (n : Nat) :
    readWord (l1 ++ l2) (l1.length + n) = readWord l2 n := by
  unfold readWord
  rw [List.length_append, ← List.drop_drop, List.drop_left]
  by_cases hc : n + 32 ≤ l2.length
  · rw [if_pos (by omega), if_pos hc]
  · rw [if_neg (by omega), if_neg hc]

theorem readWord_flatten {ws : List Nat} (hW : ∀ v ∈ ws, v < 2 ^ 256) (k : Nat) :
    readWord ((ws.map wordBE).flatten) (32 * k) = ws[k]? := by
  induction ws generalizing k with
  | nil =>
    unfold readWord
    simp
  | cons v ws ih =>
    cases k with
    | zero =>
      simp only [List.map_cons, List.flatten_cons, List.getElem?_cons_zero, Nat.mul_zero]
      unfold readWord
      rw [if_pos (by
        simp only [List.length_append, wordBE_length, flatten_words_length]
        omega)]
      rw [List.drop_zero, show (32 : Nat) = (wordBE v).length from (wordBE_length v).symm,
        List.take_left, beVal_wordBE (hW v (by simp))]
    | succ k =>
      simp only [List.map_cons, List.flatten_cons, List.getElem?_cons_succ]
      have h32 : 32 * (k + 1) = (wordBE v).length + 32 * k := by rw [wordBE_length]; ring
      rw [h32, readWord_append, ih (fun x hx => hW x (by simp [hx])) k]

theorem readWords_flatten {ws : List Nat} (hW : ∀ v ∈ ws, v < 2 ^ 256) (k n : Nat)
    (h : k + n ≤ ws.length) :
    readWords ((ws.map wordBE).flatten) (32 * k) n = some ((ws.drop k).take n) := by
  induction n generalizing k with
  | zero => simp [readWords]
  | succ n ih =>
    have hk : k < ws.length := by omega
    unfold readWords
    rw [readWord_flatten hW k, List.getElem?_eq_getElem hk,
      show 32 * k + 32 = 32 * (k + 1) from by ring, ih (k + 1) (by omega)]
    rw [List.drop_eq_getElem_cons hk]
    rfl

/-! ## The spec's wire layout -/

/-- The word sequence of the standard fixed/dynamic tuple ABI encoding of
`tuple(uint8 decimalPlaces, uint256 maxAmount, address[] allowedTokens,
address[] allowedRecipients)`, written out as the spec describes the convention:
a leading offset word (32) for the dynamic tuple; the tuple head —
`decimalPlaces` left-padded into the word at bytes 32..63 (so its value byte sits
at offset 63, not offset 0), `maxAmount` big-endian at bytes 64..95, the two
array offset words (128 and `160 + 32·|tokens|`, relative to the tuple start) —
and the two length-prefixed arrays. -/
def specAbiWords (d m : Nat) (tvals rvals : List Nat) : List Nat :=
  [32, d, m, 128, 160 + 32 * tvals.length, tvals.length] ++ tvals ++ [rvals.length] ++ rvals

/-- Byte form of `specAbiWords`: each word as 32 big-endian bytes. -/
def specAbiBytes (d m : Nat) (tvals rvals : List Nat) : List Nat :=
  ((specAbiWords d m tvals rvals).map wordBE).flatten

/-- The ethers packer emits, for this tuple shape, exactly the layout above. -/
theorem packWords_policy (d m : Nat) (tv rv : List Nat) :
    packWords [.dynamic (packWords [.static d, .static m, .dynamic (arrayWords tv),
      .dynamic (arrayWords rv)])] = specAbiWords d m tv rv := by
  simp only [packWords, packGo, arrayWords, specAbiWords, List.length_cons, List.length_nil,
    List.map_cons, List.map_nil, List.append_nil, List.nil_append, List.cons_append,
    List.length_append, if_true, if_false]
  norm_num
  rw [show 128 + 32 * (tv.length + 1) = 160 + 32 * tv.length from by ring]

theorem hexValStr_lt {a : String} (ha : isEthAddress a = true) : hexValStr a < 2 ^ 160 := by
  obtain ⟨rest, hdata, hlen, hall⟩ := isEthAddress_inv ha
  have hv : hexValStr a = hexDigitsVal rest := by
    unfold hexValStr
    rw [hdata]
    rfl
  rw [hv, show (2:Nat) ^ 160 = 16 ^ 40 from by norm_num, ← hlen]
  exact hexDigitsVal_lt hall

theorem specAbiWords_bound {d m : Nat} (hd : d < 2 ^ 256) (hm : m < 2 ^ 256)
    {tv rv : List Nat} (htv : ∀ v ∈ tv, v < 2 ^ 256) (hrv : ∀ v ∈ rv, v < 2 ^ 256)
    (hlt : tv.length ≤ 2 ^ 32) (hlr : rv.length ≤ 2 ^ 32) :
    ∀ v ∈ specAbiWords d m tv rv, v < 2 ^ 256 := by
  have hpow : (2:Nat) ^ 32 < 2 ^ 256 := Nat.pow_lt_pow_right (by omega) (by omega)
  intro v hv
  unfold specAbiWords at hv
  rcases List.mem_append.mp hv with hv | hv
  · rcases List.mem_append.mp hv with hv | hv
    · rcases List.mem_append.mp hv with hv | hv
      · simp only [List.mem_cons, List.not_mem_nil, or_false] at hv
        have h32 : (2:Nat) ^ 32 = 4294967296 := by norm_num
        have h256 : (4294967296 : Nat) < 2 ^ 256 := by rw [← h32]; exact hpow
        rcases hv with rfl | rfl | rfl | rfl | rfl | rfl
        · have : (2:Nat) ^ 32 = 4294967296 := by norm_num
          omega
        · exact hd
        · exact hm
        · omega
        · omega
        · omega
      · exact htv v hv
    · simp only [List.mem_singleton] at hv
      subst hv
      have h32 : (2:Nat) ^ 32 = 4294967296 := by norm_num
      omega
  · exact hrv v hv

/-- For a canonical record — canonical decimal numerals, `d ≤ 80` (the
`FixedNumber` format cap), scaled amount within `uint256`, checksummed addresses,
array lengths within JS bounds — `encodePolicy` succeeds and emits exactly the
standard ABI layout with the amount scaled by `10^d`. -/
theorem encodePolicy_canonical (p : Policy) (d m : Nat)
    (htype : p.type = "ERC20Transfer")
    (hdec : p.erc20Decimals = natToString d) (hd80 : d ≤ 80)
    (hmax : p.maxAmount = natToString m) (hm256 : m * 10 ^ d < 2 ^ 256)
    (htok : ∀ a ∈ p.allowedTokens, isEthAddress a = true ∧ getChecksumAddress a = a)
    (hrec : ∀ a ∈ p.allowedRecipients, isEthAddress a = true ∧ getChecksumAddress a = a)
    (hlt : p.allowedTokens.length ≤ 2 ^ 32) (hlr : p.allowedRecipients.length ≤ 2 ^ 32) :
    encodePolicy p = .ok (specAbiBytes d (m * 10 ^ d) (p.allowedTokens.map hexValStr)
      (p.allowedRecipients.map hexValStr)) := by
  have hval : validatePolicy p = .ok p := by
    rw [validatePolicy_ok_iff]
    refine ⟨rfl, htype, ?_, ?_, ?_, ?_⟩
    · rw [hdec, decimalsRefine_iff]
      exact ⟨d, parseIntJS_natToString d, Int.ofNat_nonneg d, by exact_mod_cast by omega⟩
    · rw [hmax, maxAmountRefine_iff]
      exact ⟨m, parseIntJS_natToString m, Int.ofNat_nonneg m⟩
    · rw [List.all_eq_true]
      exact fun a ha => (htok a ha).1
    · rw [List.all_eq_true]
      exact fun a ha => (hrec a ha).1
  have h511 : m * 10 ^ d < 2 ^ 511 :=
    lt_trans hm256 (Nat.pow_lt_pow_right (by omega) (by omega))
  have hwords : ((specAbiWords d (m * 10 ^ d) (p.allowedTokens.map hexValStr)
      (p.allowedRecipients.map hexValStr)).all fun w => decide (w < 2 ^ 256)) = true := by
    rw [List.all_eq_true]
    intro w hw
    refine decide_eq_true (specAbiWords_bound ?_ hm256 ?_ ?_ ?_ ?_ w hw)
    · have : (2:Nat) ^ 256 = 2 ^ 256 := rfl
      have hbig : (80:Nat) < 2 ^ 256 := by norm_num
      omega
    · intro v hv
      rcases List.mem_map.mp hv with ⟨a, ha, rfl⟩
      have := hexValStr_lt (htok a ha).1
      have hcmp : (2:Nat) ^ 160 < 2 ^ 256 := Nat.pow_lt_pow_right (by omega) (by omega)
      omega
    · intro v hv
      rcases List.mem_map.mp hv with ⟨a, ha, rfl⟩
      have := hexValStr_lt (hrec a ha).1
      have hcmp : (2:Nat) ^ 160 < 2 ^ 256 := Nat.pow_lt_pow_right (by omega) (by omega)
      omega
    · simpa using hlt
    · simpa using hlr
  unfold encodePolicy
  rw [hval, hdec, hmax]
  simp only [parseIntAuto_natToString, Int.toNat_natCast]
  rw [if_pos (show (0:Int) ≤ (d:Int) ∧ (d:Int) ≤ 80 from
    ⟨Int.ofNat_nonneg d, by exact_mod_cast hd80⟩)]
  simp only [fixedFromString_natToString m d h511, jsBigIntOfString_natToString,
    Int.toNat_natCast]
  rw [if_pos (show (0:Int) ≤ (d:Int) ∧ (d:Int) < 256 from
    ⟨Int.ofNat_nonneg d, by exact_mod_cast by omega⟩)]
  rw [if_pos (show (0:Int) ≤ ((m * 10 ^ d : Nat) : Int) ∧ ((m * 10 ^ d : Nat) : Int) < 2 ^ 256 from
    ⟨Int.ofNat_nonneg _, by exact_mod_cast hm256⟩)]
  simp only [encodeAddrList_ok htok, encodeAddrList_ok hrec, Int.toNat_natCast]
  rw [packWords_policy, if_pos hwords]
  rfl

/-! ## Decoding the spec layout -/

theorem drop_append_lemma (l1 l2 : List Nat) (n : Nat) :
    (l1 ++ l2).drop (l1.length + n) = l2.drop n := by
  rw [← List.drop_drop, List.drop_left]

theorem specAbiWords_length (d m : Nat) (tv rv : List Nat) :
    (specAbiWords d m tv rv).length = 7 + tv.length + rv.length := by
  simp [specAbiWords]
  omega

theorem specAbiWords_getElem_far (d m : Nat) (tv rv : List Nat) :
    (specAbiWords d m tv rv)[6 + tv.length]? = some rv.length := by
  simp only [specAbiWords, List.cons_append, List.nil_append]
  rw [show 6 + tv.length = tv.length + 5 + 1 from by omega, List.getElem?_cons_succ,
    show tv.length + 5 = tv.length + 4 + 1 from by omega, List.getElem?_cons_succ,
    show tv.length + 4 = tv.length + 3 + 1 from by omega, List.getElem?_cons_succ,
    show tv.length + 3 = tv.length + 2 + 1 from by omega, List.getElem?_cons_succ,
    show tv.length + 2 = tv.length + 1 + 1 from by omega, List.getElem?_cons_succ,
    show tv.length + 1 = tv.length + 0 + 1 from by omega, List.getElem?_cons_succ]
  rw [List.getElem?_append, if_pos (by simp), List.getElem?_append, if_neg (by omega)]
  simp

theorem specAbiWords_drop6 (d m : Nat) (tv rv : List Nat) :
    (specAbiWords d m tv rv).drop 6 = tv ++ [rv.length] ++ rv := by
  simp [specAbiWords]

theorem specAbiWords_drop7 (d m : Nat) (tv rv : List Nat) :
    (specAbiWords d m tv rv).drop (7 + tv.length) = rv := by
  rw [show 7 + tv.length = 6 + (tv.length + 1) from by omega, ← List.drop_drop,
    specAbiWords_drop6,
    show tv.length + 1 = (tv ++ [rv.length]).length + 0 from by simp,
    drop_append_lemma, List.drop_zero]

/-- Structure of `decodePolicy` when every read succeeds. -/
theorem decodePolicy_eq_of (bs : List Nat) (w0 d m t r : Nat) (tv rv : List Nat)
    (toks recips : List String)
    (h0 : readWord bs 0 = some w0)
    (h1 : readWord bs w0 = some d) (h2 : readWord bs (w0 + 32) = some m)
    (h3 : readWord bs (w0 + 64) = some t) (h4 : readWord bs (w0 + 96) = some r)
    (ha1 : readArray bs (w0 + t) = .ok tv) (ha2 : readArray bs (w0 + r) = .ok rv)
    (hd1 : decodeAddrList tv = .ok toks) (hd2 : decodeAddrList rv = .ok recips) :
    decodePolicy bs = validatePolicy ⟨"ERC20Transfer", "1.0.0", natToString d,
      natToString m, toks, recips⟩ := by
  unfold decodePolicy
  rw [h0]
  simp only [h1, h2, h3, h4, ha1, ha2, hd1, hd2]

/-- Decoding the spec layout of a canonical record reconstructs the record with
`type`/`version` reset to the canonical constants and the numeric fields rendered
back to decimal strings; the trailing re-validation passes. -/
theorem decodePolicy_spec (d m' : Nat) (hd255 : d ≤ 255) (hm : m' < 2 ^ 256)
    (toks recips : List String)
    (htok : ∀ a ∈ toks, isEthAddress a = true ∧ getChecksumAddress a = a)
    (hrec : ∀ a ∈ recips, isEthAddress a = true ∧ getChecksumAddress a = a)
    (hlt : toks.length ≤ 2 ^ 32) (hlr : recips.length ≤ 2 ^ 32) :
    decodePolicy (specAbiBytes d m' (toks.map hexValStr) (recips.map hexValStr)) =
      .ok ⟨"ERC20Transfer", "1.0.0", natToString d, natToString m', toks, recips⟩ := by
  have hpow : (2:Nat) ^ 160 < 2 ^ 256 := Nat.pow_lt_pow_right (by omega) (by omega)
  have hW : ∀ v ∈ specAbiWords d m' (toks.map hexValStr) (recips.map hexValStr), v < 2 ^ 256 := by
    refine specAbiWords_bound ?_ hm ?_ ?_ ?_ ?_
    · have : (255:Nat) < 2 ^ 256 := by norm_num
      omega
    · intro v hv
      rcases List.mem_map.mp hv with ⟨a, ha, rfl⟩
      have := hexValStr_lt (htok a ha).1
      omega
    · intro v hv
      rcases List.mem_map.mp hv with ⟨a, ha, rfl⟩
      have := hexValStr_lt (hrec a ha).1
      omega
    · simpa using hlt
    · simpa using hlr
  have hblen : (specAbiBytes d m' (toks.map hexValStr) (recips.map hexValStr)).length =
      32 * (7 + toks.length + recips.length) := by
    unfold specAbiBytes
    rw [flatten_words_length, specAbiWords_length]
    simp
  have g0 : (specAbiWords d m' (toks.map hexValStr) (recips.map hexValStr))[0]? = some 32 := by
    simp [specAbiWords]
  have g1 : (specAbiWords d m' (toks.map hexValStr) (recips.map hexValStr))[1]? = some d := by
    simp [specAbiWords]
  have g2 : (specAbiWords d m' (toks.map hexValStr) (recips.map hexValStr))[2]? = some m' := by
    simp [specAbiWords]
  have g3 : (specAbiWords d m' (toks.map hexValStr) (recips.map hexValStr))[3]? = some 128 := by
    simp [specAbiWords]
  have g4 : (specAbiWords d m' (toks.map hexValStr) (recips.map hexValStr))[4]?
      = some (160 + 32 * toks.length) := by
    simp [specAbiWords]
  have g5 : (specAbiWords d m' (toks.map hexValStr) (recips.map hexValStr))[5]?
      = some toks.length := by
    simp [specAbiWords]
  have r0 : readWord (specAbiBytes d m' (toks.map hexValStr) (recips.map hexValStr)) 0
      = some 32 := by
    have h := readWord_flatten hW 0
    rw [Nat.mul_zero, g0] at h
    exact h
  have r1 : readWord (specAbiBytes d m' (toks.map hexValStr) (recips.map hexValStr)) 32
      = some d := by
    have h := readWord_flatten hW 1
    rw [Nat.mul_one, g1] at h
    exact h
  have r2 : readWord (specAbiBytes d m' (toks.map hexValStr) (recips.map hexValStr)) 64
      = some m' := by
    have h := readWord_flatten hW 2
    rw [g2, show (32:Nat) * 2 = 64 from by norm_num] at h
    exact h
  have r3 : readWord (specAbiBytes d m' (toks.map hexValStr) (recips.map hexValStr)) 96
      = some 128 := by
    have h := readWord_flatten hW 3
    rw [g3, show (32:Nat) * 3 = 96 from by norm_num] at h
    exact h
  have r4 : readWord (specAbiBytes d m' (toks.map hexValStr) (recips.map hexValStr)) 128
      = some (160 + 32 * toks.length) := by
    have h := readWord_flatten hW 4
    rw [g4, show (32:Nat) * 4 = 128 from by norm_num] at h
    exact h
  have r5 : readWord (specAbiBytes d m' (toks.map hexValStr) (recips.map hexValStr)) 160
      = some toks.length := by
    have h := readWord_flatten hW 5
    rw [g5, show (32:Nat) * 5 = 160 from by norm_num] at h
    exact h
  have r6 : readWord (specAbiBytes d m' (toks.map hexValStr) (recips.map hexValStr))
      (192 + 32 * toks.length) = some recips.length := by
    have h := readWord_flatten hW (6 + (toks.map hexValStr).length)
    rw [specAbiWords_getElem_far, show 32 * (6 + (toks.map hexValStr).length)
      = 192 + 32 * toks.length from by simp [List.length_map]; ring] at h
    rw [show ((recips.map hexValStr).length) = recips.length from by simp] at h
    exact h
  have rws1 : readWords (specAbiBytes d m' (toks.map hexValStr) (recips.map hexValStr)) 192
      (toks.map hexValStr).length = some (toks.map hexValStr) := by
    have := readWords_flatten hW 6 (toks.map hexValStr).length
      (by rw [specAbiWords_length]; simp; omega)
    rw [specAbiWords_drop6, show (32 : Nat) * 6 = 192 from by norm_num,
      List.append_assoc, List.take_left] at this
    exact this
  have rws2 : readWords (specAbiBytes d m' (toks.map hexValStr) (recips.map hexValStr))
      (224 + 32 * toks.length) (recips.map hexValStr).length
      = some (recips.map hexValStr) := by
    have := readWords_flatten hW (7 + (toks.map hexValStr).length)
      (recips.map hexValStr).length (by rw [specAbiWords_length])
    rw [specAbiWords_drop7, List.take_length, show 32 * (7 + (toks.map hexValStr).length)
      = 224 + 32 * (toks.map hexValStr).length from by ring] at this
    simpa using this
  have ra1 : readArray (specAbiBytes d m' (toks.map hexValStr) (recips.map hexValStr)) 160
      = .ok (toks.map hexValStr) := by
    unfold readArray
    simp only [r5]
    rw [if_pos (by rw [hblen]; omega)]
    rw [show (160:Nat) + 32 = 192 from by norm_num]
    rw [show toks.length = (toks.map hexValStr).length from by simp]
    simp only [rws1]
  have ra2 : readArray (specAbiBytes d m' (toks.map hexValStr) (recips.map hexValStr))
      (192 + 32 * toks.length) = .ok (recips.map hexValStr) := by
    unfold readArray
    simp only [r6]
    rw [if_pos (by rw [hblen]; omega)]
    rw [show 192 + 32 * toks.length + 32 = 224 + 32 * toks.length from by ring]
    rw [show recips.length = (recips.map hexValStr).length from by simp]
    simp only [rws2]
  have hvdec : validatePolicy ⟨"ERC20Transfer", "1.0.0", natToString d, natToString m',
      toks, recips⟩ = .ok ⟨"ERC20Transfer", "1.0.0", natToString d, natToString m',
      toks, recips⟩ := by
    rw [validatePolicy_ok_iff]
    refine ⟨rfl, rfl, ?_, ?_, ?_, ?_⟩
    · rw [decimalsRefine_iff]
      exact ⟨d, parseIntJS_natToString d, Int.ofNat_nonneg d, by exact_mod_cast hd255⟩
    · rw [maxAmountRefine_iff]
      exact ⟨m', parseIntJS_natToString m', Int.ofNat_nonneg m'⟩
    · rw [List.all_eq_true]
      exact fun a ha => (htok a ha).1
    · rw [List.all_eq_true]
      exact fun a ha => (hrec a ha).1
  rw [decodePolicy_eq_of _ 32 d m' 128 (160 + 32 * toks.length)
      (toks.map hexValStr) (recips.map hexValStr) toks recips r0 r1
      (by rw [show (32:Nat) + 32 = 64 from by norm_num]; exact r2)
      (by rw [show (32:Nat) + 64 = 96 from by norm_num]; exact r3)
      (by rw [show (32:Nat) + 96 = 128 from by norm_num]; exact r4)
      (by rw [show (32:Nat) + 128 = 160 from by norm_num]; exact ra1)
      (by rw [show 32 + (160 + 32 * toks.length) = 192 + 32 * toks.length from by ring]
          exact ra2)
      (decodeAddrList_ok htok) (decodeAddrList_ok hrec)]
  exact hvdec

/-- Word bounds for a canonical record's layout. -/
theorem canonical_words_bound (d m' : Nat) (hd : d ≤ 255) (hm : m' < 2 ^ 256)
    (toks recips : List String)
    (htok : ∀ a ∈ toks, isEthAddress a = true) (hrec : ∀ a ∈ recips, isEthAddress a = true)
    (hlt : toks.length ≤ 2 ^ 32) (hlr : recips.length ≤ 2 ^ 32) :
    ∀ v ∈ specAbiWords d m' (toks.map hexValStr) (recips.map hexValStr), v < 2 ^ 256 := by
  have hpow : (2:Nat) ^ 160 < 2 ^ 256 := Nat.pow_lt_pow_right (by omega) (by omega)
  refine specAbiWords_bound ?_ hm ?_ ?_ ?_ ?_
  · have : (255:Nat) < 2 ^ 256 := by norm_num
    omega
  · intro v hv
    rcases List.mem_map.mp hv with ⟨a, ha, rfl⟩
    have := hexValStr_lt (htok a ha)
    omega
  · intro v hv
    rcases List.mem_map.mp hv with ⟨a, ha, rfl⟩
    have := hexValStr_lt (hrec a ha)
    omega
  · simpa using hlt
  · simpa using hlr

/-- The `maxAmount` word of the wire form sits at byte offsets 64..95. -/
theorem specAbiBytes_maxAmount_word (d m' : Nat) (tv rv : List Nat)
    (hW : ∀ v ∈ specAbiWords d m' tv rv, v < 2 ^ 256) :
    readWord (specAbiBytes d m' tv rv) 64 = some m' := by
  have h := readWord_flatten hW 2
  rw [show (32:Nat) * 2 = 64 from by norm_num] at h
  unfold specAbiBytes
  rw [h]
  simp [specAbiWords]

/-- The full canonical round trip: decoding a freshly encoded canonical record
reproduces its wire-carried fields, scales `maxAmount` by `10^d`, and resets
`type`/`version` to the canonical constants (whatever `p.version` was). -/
theorem roundTrip_canonical (p : Policy) (d m : Nat)
    (htype : p.type = "ERC20Transfer")
    (hdec : p.erc20Decimals = natToString d) (hd80 : d ≤ 80)
    (hmax : p.maxAmount = natToString m) (hm256 : m * 10 ^ d < 2 ^ 256)
    (htok : ∀ a ∈ p.allowedTokens, isEthAddress a = true ∧ getChecksumAddress a = a)
    (hrec : ∀ a ∈ p.allowedRecipients, isEthAddress a = true ∧ getChecksumAddress a = a)
    (hlt : p.allowedTokens.length ≤ 2 ^ 32) (hlr : p.allowedRecipients.length ≤ 2 ^ 32) :
    roundTrip p =
      .ok { type := "ERC20Transfer", version := "1.0.0",
            erc20Decimals := p.erc20Decimals, maxAmount := natToString (m * 10 ^ d),
            allowedTokens := p.allowedTokens,
            allowedRecipients := p.allowedRecipients } := by
  unfold roundTrip
  simp only [encodePolicy_canonical p d m htype hdec hd80 hmax hm256 htok hrec hlt hlr]
  rw [decodePolicy_spec d (m * 10 ^ d) (by omega) hm256 p.allowedTokens p.allowedRecipients
    htok hrec hlt hlr, hdec]

/-! ## Round-trip and wire-format claims -/

set_option maxRecDepth 400000

def pC1 : Policy := ⟨"ERC20Transfer", "1.0.0", "012", "7", [], []⟩
def pC1w : Policy :=
  ⟨"ERC20Transfer", "0.9", "2", "5", ["0xfB6916095ca1df60bB79Ce92cE3Ea74c37c5d359"], []⟩
def pC2 : Policy := ⟨"ERC20Transfer", "1.0.0", "18", "1", [], []⟩
def pC2w : Policy := ⟨"ERC20Transfer", "1.0.0", "18", "21", [], []⟩
def pC3 : Policy := ⟨"ERC20Transfer", "1.0.0", "18", "1",
  ["0xAAAAAAAAAAAAAAAAAAAAAAAAAAAAAAAAAAAAAAAA"], ["0xBBBBBBBBBBBBBBBBBBBBBBBBBBBBBBBBBBBBBBBB"]⟩
def pC3w : Policy := ⟨"ERC20Transfer", "1.0.0", "7", "3", [], []⟩

/-- **C1 counterexample**: the record with `erc20Decimals = "012"` is accepted by
`validate` (`parseInt` reads 12), but `decode(encode(p))` returns the
re-canonicalised `"12"`, so the decoded record differs from `p` on
`decimalPlaces`, refuting the claim as stated. -/
theorem claimC1_counterexample :
    validatePolicy pC1 = .ok pC1 ∧ pC1.erc20Decimals = "012" ∧
    (roundTrip pC1).map Policy.erc20Decimals = .ok "12" := by decide

/-- **C1 (amended)**: for every record accepted by `validate` whose
`erc20Decimals` and `maxAmount` are canonical decimal numerals with `d ≤ 80`
(the `parseUnits` format cap) and scaled amount below `2^256`, whose addresses
are already in EIP-55 checksummed form, and whose array lengths are
JS-representable, `decode(encode(p))` yields a record whose `allowedTokens`,
`allowedRecipients` and `decimalPlaces` equal `p`'s, whose `maxAmount` equals
`p`'s value scaled by `10^d`, and whose `type`/`version` are reset to the
canonical constants regardless of `p.version`. (As literally stated the claim
fails: non-canonical numerals are re-canonicalised — see the counterexample —
lowercase addresses come back checksummed, and `encode` throws outright for
accepted records such as `maxAmount = "12abc"`.) -/
theorem claimC1_roundtrip (p : Policy) (d m : Nat)
    (htype : p.type = "ERC20Transfer")
    (hdec : p.erc20Decimals = natToString d) (hd80 : d ≤ 80)
    (hmax : p.maxAmount = natToString m) (hm256 : m * 10 ^ d < 2 ^ 256)
    (htok : ∀ a ∈ p.allowedTokens, isEthAddress a = true ∧ getChecksumAddress a = a)
    (hrec : ∀ a ∈ p.allowedRecipients, isEthAddress a = true ∧ getChecksumAddress a = a)
    (hlt : p.allowedTokens.length ≤ 2 ^ 32) (hlr : p.allowedRecipients.length ≤ 2 ^ 32) :
    roundTrip p =
      .ok { type := "ERC20Transfer", version := "1.0.0",
            erc20Decimals := p.erc20Decimals, maxAmount := natToString (m * 10 ^ d),
            allowedTokens := p.allowedTokens,
            allowedRecipients := p.allowedRecipients } :=
  roundTrip_canonical p d m htype hdec hd80 hmax hm256 htok hrec hlt hlr

set_option maxHeartbeats 1000000 in
/-- Witness for C1 (amended): a concrete record with a checksummed token address
and a non-canonical `version` (`"0.9"`), which the round trip resets to
`"1.0.0"`. -/
theorem claimC1_witness :
    roundTrip pC1w =
      .ok { type := "ERC20Transfer", version := "1.0.0",
            erc20Decimals := pC1w.erc20Decimals, maxAmount := natToString (5 * 10 ^ 2),
            allowedTokens := pC1w.allowedTokens,
            allowedRecipients := pC1w.allowedRecipients } :=
  claimC1_roundtrip pC1w 2 5 rfl (by decide) (by decide) (by decide) (by decide)
    (by decide) (by decide) (by decide) (by decide)

/-- **C2 counterexample**: for the accepted record with `erc20Decimals = "18"`,
`maxAmount = "1"`, the decoded `maxAmount` is the scaled string
`"1000000000000000000"`, not `"1"`: `decode(encode(p))` does not equal `p` on
`maxAmount`. -/
theorem claimC2_counterexample :
    validatePolicy pC2 = .ok pC2 ∧ pC2.maxAmount = "1" ∧ pC2.erc20Decimals = "18" ∧
    (roundTrip pC2).map Policy.maxAmount = .ok "1000000000000000000" := by decide

/-- **C2 (amended)**: under the canonical hypotheses of C1, `decode(encode(p))`
equals `p` on `decimalPlaces`, `allowedTokens` and `allowedRecipients`, but its
`maxAmount` is `p`'s value multiplied by `10^decimalPlaces` (rendered as a
decimal numeral), not `p`'s original string. -/
theorem claimC2_roundtrip (p : Policy) (d m : Nat)
    (htype : p.type = "ERC20Transfer")
    (hdec : p.erc20Decimals = natToString d) (hd80 : d ≤ 80)
    (hmax : p.maxAmount = natToString m) (hm256 : m * 10 ^ d < 2 ^ 256)
    (htok : ∀ a ∈ p.allowedTokens, isEthAddress a = true ∧ getChecksumAddress a = a)
    (hrec : ∀ a ∈ p.allowedRecipients, isEthAddress a = true ∧ getChecksumAddress a = a)
    (hlt : p.allowedTokens.length ≤ 2 ^ 32) (hlr : p.allowedRecipients.length ≤ 2 ^ 32) :
    (roundTrip p).map (fun q => (q.erc20Decimals, q.allowedTokens, q.allowedRecipients))
      = .ok (p.erc20Decimals, p.allowedTokens, p.allowedRecipients) ∧
    (roundTrip p).map Policy.maxAmount = .ok (natToString (m * 10 ^ d)) := by
  rw [roundTrip_canonical p d m htype hdec hd80 hmax hm256 htok hrec hlt hlr]
  exact ⟨rfl, rfl⟩

/-- Witness for C2 (amended) at a concrete record. -/
theorem claimC2_witness :
    (roundTrip pC2w).map (fun q => (q.erc20Decimals, q.allowedTokens, q.allowedRecipients))
      = .ok (pC2w.erc20Decimals, pC2w.allowedTokens, pC2w.allowedRecipients) ∧
    (roundTrip pC2w).map Policy.maxAmount = .ok (natToString (21 * 10 ^ 18)) :=
  claimC2_roundtrip pC2w 18 21 rfl (by decide) (by decide) (by decide) (by decide)
    (by decide) (by decide) (by decide) (by decide)

/-- **C3 counterexample**: for the accepted record with `decimalPlaces = 18`, the
encoder's byte 0 is `0` (high byte of the leading 32-byte tuple-offset word),
not the `uint8` value 18 the claim places at offset 0; the `decimalPlaces` byte
actually sits at offset 63, left-padded in the second 32-byte word. -/
theorem claimC3_counterexample :
    validatePolicy pC3 = .ok pC3 ∧ pC3.erc20Decimals = "18" ∧
    (encodePolicy pC3).map (fun bs => bs.take 1) = .ok [0] ∧
    (encodePolicy pC3).map (fun bs => bs.take 1) ≠ .ok [18] ∧
    (encodePolicy pC3).map (fun bs => bs.getD 63 256) = .ok 18 := by decide

/-- **C3 (amended)**: the bytes produced by `encode` are the standard
fixed/dynamic tuple ABI encoding of `(uint8, uint256, address[], address[])` —
`specAbiBytes`: a leading 32-byte offset word (value 32), `decimalPlaces`
left-padded into bytes 32..63 (value byte at offset 63, not 0), `maxAmount`
big-endian at bytes 64..95, then the two array offset words and the
length-prefixed arrays. The claim's packed layout (`uint8` at byte 0, `uint256`
at bytes 1..32) does not hold. -/
theorem claimC3_layout (p : Policy) (d m : Nat)
    (htype : p.type = "ERC20Transfer")
    (hdec : p.erc20Decimals = natToString d) (hd80 : d ≤ 80)
    (hmax : p.maxAmount = natToString m) (hm256 : m * 10 ^ d < 2 ^ 256)
    (htok : ∀ a ∈ p.allowedTokens, isEthAddress a = true ∧ getChecksumAddress a = a)
    (hrec : ∀ a ∈ p.allowedRecipients, isEthAddress a = true ∧ getChecksumAddress a = a)
    (hlt : p.allowedTokens.length ≤ 2 ^ 32) (hlr : p.allowedRecipients.length ≤ 2 ^ 32) :
    encodePolicy p = .ok (specAbiBytes d (m * 10 ^ d) (p.allowedTokens.map hexValStr)
      (p.allowedRecipients.map hexValStr)) :=
  encodePolicy_canonical p d m htype hdec hd80 hmax hm256 htok hrec hlt hlr

/-- Witness for C3 (amended) at a concrete record. -/
theorem claimC3_witness :
    encodePolicy pC3w = .ok (specAbiBytes 7 (3 * 10 ^ 7) (pC3w.allowedTokens.map hexValStr)
      (pC3w.allowedRecipients.map hexValStr)) :=
  claimC3_layout pC3w 7 3 rfl (by decide) (by decide) (by decide) (by decide)
    (by decide) (by decide) (by decide) (by decide)

/-- **C4**: whenever `encode` succeeds on a canonical record it writes
`maxAmount × 10^decimalPlaces` into the wire form's `maxAmount` word (bytes
64..95); in particular, encoding the record with `decimalPlaces = 18`,
`maxAmount = "1"` and the `0xAAAA…`/`0xBBBB…` addresses puts exactly `10^18`
there. -/
theorem claimC4_scaling :
    (∀ (p : Policy) (d m : Nat), p.type = "ERC20Transfer" →
      p.erc20Decimals = natToString d → d ≤ 80 →
      p.maxAmount = natToString m → m * 10 ^ d < 2 ^ 256 →
      (∀ a ∈ p.allowedTokens, isEthAddress a = true ∧ getChecksumAddress a = a) →
      (∀ a ∈ p.allowedRecipients, isEthAddress a = true ∧ getChecksumAddress a = a) →
      p.allowedTokens.length ≤ 2 ^ 32 → p.allowedRecipients.length ≤ 2 ^ 32 →
      (encodePolicy p).map (fun bs => readWord bs 64) = .ok (some (m * 10 ^ d))) ∧
    (encodePolicy pC3).map (fun bs => readWord bs 64) = .ok (some (10 ^ 18)) := by
  constructor
  · intro p d m htype hdec hd80 hmax hm256 htok hrec hlt hlr
    rw [encodePolicy_canonical p d m htype hdec hd80 hmax hm256 htok hrec hlt hlr]
    have hW := canonical_words_bound d (m * 10 ^ d) (by omega) hm256
      p.allowedTokens p.allowedRecipients (fun a ha => (htok a ha).1)
      (fun a ha => (hrec a ha).1) hlt hlr
    simp only [Except.map]
    rw [specAbiBytes_maxAmount_word d (m * 10 ^ d) _ _ hW]
  · decide

/-- Witness for C4's universal part at a concrete record. -/
theorem claimC4_witness :
    (encodePolicy pC2).map (fun bs => readWord bs 64) = .ok (some (1 * 10 ^ 18)) :=
  claimC4_scaling.1 pC2 18 1 rfl (by decide) (by decide) (by decide) (by decide)
    (by decide) (by decide) (by decide) (by decide)

/-- A layout-shaped buffer whose `allowedTokens` length prefix is the absurd
`2^200`. -/
def badLenBytes : List Nat := (([32, 5, 7, 128, 160, 2 ^ 200, 0] : List Nat).map wordBE).flatten

/-- **C5**: every byte sequence shorter than what the fixed head requires (all of
the head reads need the first 128 bytes) makes `decode` fail with a
`DecodingError` — never a crash, zero-fill or partial record — and a buffer with
a malformed (absurdly large) array length prefix fails the same way. -/
theorem claimC5_decode_errors :
    (∀ bs : List Nat, bs.length < 128 → decodePolicy bs = .error .decodingError) ∧
    badLenBytes.length = 224 ∧
    decodePolicy badLenBytes = .error .decodingError := by
  refine ⟨?_, by decide, by decide⟩
  intro bs hlen
  unfold decodePolicy
  cases h0 : readWord bs 0 with
  | none => rfl
  | some w0 =>
    have h4 : readWord bs (w0 + 96) = none := by
      unfold readWord
      rw [if_neg (by omega)]
    simp only [h4]
    cases readWord bs w0 <;> cases readWord bs (w0 + 32) <;>
      cases readWord bs (w0 + 64) <;> rfl

/-- Witness for C5 at the empty byte sequence. -/
theorem claimC5_witness : decodePolicy [] = .error .decodingError :=
  claimC5_decode_errors.1 [] (by decide)

/-- **C6**: `encodePolicy` is embedded as a pure function — it touches no state —
and its output depends only on the record's field values: two records agreeing
on all six fields encode to byte-identical output. -/
theorem claimC6_deterministic (p q : Policy)
    (h1 : p.type = q.type) (h2 : p.version = q.version)
    (h3 : p.erc20Decimals = q.erc20Decimals) (h4 : p.maxAmount = q.maxAmount)
    (h5 : p.allowedTokens = q.allowedTokens)
    (h6 : p.allowedRecipients = q.allowedRecipients) :
    encodePolicy p = encodePolicy q := by
  have hpq : p = q := by
    cases p
    cases q
    simp_all
  rw [hpq]

/-- Witness for C6. -/
theorem claimC6_witness : encodePolicy pC2 = encodePolicy pC2 :=
  claimC6_deterministic pC2 pC2 rfl rfl rfl rfl rfl rfl
